import Mathlib

/-!  Verification of the geometry/fusion engine of the damage-detection
repository: bounding-box IoU, candidate merging, oversized-region
filtering, cross-pass reconciliation, non-max suppression, YOLO candidate
decoding and grid mapping, shallowly embedded from the Python source
(`backend/shared/cv_utils.py`, `backend/shared/single_agent.py`,
`backend/shared/image_utils.py`, `backend/lambda/agent-overlay/handler.py`).
Pixel coordinates and confidences are modelled as exact rationals. -/

namespace ICD

/-- IoU of two bounding boxes, embedded from `cv_utils.calculate_overlap`.
Boxes are 4-element lists `[x1, y1, x2, y2]`.  Every call site in the
source guards `len(bbox) == 4` before calling; on a non-4-element box
Python would raise on tuple unpacking, so the wildcard branch is
unreachable from the embedded call sites and returns 0.  The function is
total, mirroring that the Python body never raises on 4-element input
(the `union == 0` division guard is explicit in the source). -/
def calculate_overlap : List ℚ → List ℚ → ℚ
  | [x1a, y1a, x2a, y2a], [x1b, y1b, x2b, y2b] =>
      let x1i := max x1a x1b
      let y1i := max y1a y1b
      let x2i := min x2a x2b
      let y2i := min y2a y2b
      if x2i ≤ x1i ∨ y2i ≤ y1i then 0
      else
        let inter := (x2i - x1i) * (y2i - y1i)
        let area1 := (x2a - x1a) * (y2a - y1a)
        let area2 := (x2b - x1b) * (y2b - y1b)
        let uni := area1 + area2 - inter
        if uni = 0 then 0 else inter / uni
  | _, _ => 0

/-- A damage-area candidate dictionary as passed between the fusion and
reconciliation stages.  The claims under verification quantify over
candidates that carry all of these keys, so the dictionary is modelled as
a record with total fields (`bbox` keeps list form so that candidates
with a malformed, non-4-element bbox are expressible). -/
structure Area where
  bbox : List ℚ
  confidence : ℚ
  damage_type : String
  severity : String
  grid_coords : Option (ℤ × ℤ)
deriving DecidableEq

/-- Best-IoU search of `cv_utils.merge_damage_areas` (the inner `for
existing in merged` loop): scan the working list, skipping entries
without a 4-element bbox, keeping the first entry whose IoU strictly
exceeds the running best (initially 0.0).  `k` is the index of the next
entry, so matches can be updated in place by index. -/
def bestFrom (bbox : List ℚ) : ℕ → (Option (ℕ × Area) × ℚ) → List Area →
    Option (ℕ × Area) × ℚ
  | _, acc, [] => acc
  | k, acc, ex :: rest =>
      if ex.bbox.length = 4 then
        let iou := calculate_overlap ex.bbox bbox
        if acc.2 < iou then bestFrom bbox (k + 1) (some (k, ex), iou) rest
        else bestFrom bbox (k + 1) acc rest
      else bestFrom bbox (k + 1) acc rest

/-- State `best_match` / `best_iou` of `merge_damage_areas`. -/
def bestExisting (merged : List Area) (bbox : List ℚ) : Option (ℕ × Area) × ℚ :=
  bestFrom bbox 0 (none, 0) merged

/-- One iteration of the `for candidate in secondary` loop of
`cv_utils.merge_damage_areas`: skip candidates without a 4-element bbox;
if a best match exists and its IoU is at least the threshold, overwrite
it (Python `best_match.update(candidate)`, which on total-field records
replaces every field) exactly when the candidate confidence is strictly
greater; otherwise append. -/
def mergeStep (t : ℚ) (merged : List Area) (c : Area) : List Area :=
  if c.bbox.length = 4 then
    match bestExisting merged c.bbox with
    | (some (i, ex), bi) =>
        if t ≤ bi then
          if ex.confidence < c.confidence then merged.set i c else merged
        else merged ++ [c]
    | (none, _) => merged ++ [c]
  else merged

/-- Embedding of `cv_utils.merge_damage_areas`: fold the secondary candidates into a
working copy of the primary list. -/
def merge_damage_areas (primary secondary : List Area) (t : ℚ) : List Area :=
  secondary.foldl (mergeStep t) primary

/-- Area of a bbox as computed by the guard in
`cv_utils.filter_large_damage_areas` (`max(0, x2-x1) * max(0, y2-y1)`). -/
def bboxArea : List ℚ → ℚ
  | [x1, y1, x2, y2] => max 0 (x2 - x1) * max 0 (y2 - y1)
  | _ => 0

/-- Keep-predicate of the `for area in damage_areas` loop of
`cv_utils.filter_large_damage_areas`: entries without a 4-element bbox
are skipped (`continue`); an entry is dropped when the original list has
more than one element and its area fraction strictly exceeds
`max_fraction`. -/
def keepArea (damage_areas : List Area) (image_area : ℚ) (max_fraction : ℚ)
    (a : Area) : Bool :=
  match a.bbox with
  | [x1, y1, x2, y2] =>
      let bbox_area := max 0 (x2 - x1) * max 0 (y2 - y1)
      let fraction := if image_area = 0 then 0 else bbox_area / image_area
      !(decide (1 < damage_areas.length) && decide (max_fraction < fraction))
  | _ => false

/-- Embedding of `cv_utils.filter_large_damage_areas`: non-positive dimensions are
returned unchanged; otherwise drop oversized entries, falling back to
the original list when everything would be dropped. -/
def filter_large_damage_areas (damage_areas : List Area)
    (image_width image_height : ℤ) (max_fraction : ℚ) : List Area :=
  if image_width ≤ 0 ∨ image_height ≤ 0 then damage_areas
  else
    let image_area : ℚ := (image_width : ℚ) * (image_height : ℚ)
    let filtered := damage_areas.filter (keepArea damage_areas image_area max_fraction)
    if filtered = [] then damage_areas else filtered

/-- A record of the cross-pass reconciler output
(`agent-overlay/handler.py`): the reconciled area plus the provenance
fields `agent1_confidence`, `agent2_confidence` and `overlap_score`. -/
structure OverlapArea where
  bbox : List ℚ
  grid_coords : Option (ℤ × ℤ)
  confidence : ℚ
  damage_type : String
  severity : String
  agent1_confidence : ℚ
  agent2_confidence : ℚ
  overlap_score : ℚ
deriving DecidableEq

/-- Best-match search of the reconciler (`for area2 in
agent2_damage_areas`): entries without a 4-element bbox are skipped; the
running best is replaced when the IoU strictly exceeds both the running
best (initially 0.0) and the overlap threshold. -/
def bestOverlapFrom (bbox1 : List ℚ) (t : ℚ) (acc : Option Area × ℚ) :
    List Area → Option Area × ℚ
  | [] => acc
  | a2 :: rest =>
      if a2.bbox.length = 4 then
        let iou := calculate_overlap bbox1 a2.bbox
        if acc.2 < iou ∧ t < iou then bestOverlapFrom bbox1 t (some a2, iou) rest
        else bestOverlapFrom bbox1 t acc rest
      else bestOverlapFrom bbox1 t acc rest

/-- State `best_overlap` / `best_iou` of the reconciler. -/
def bestOverlap (areas2 : List Area) (bbox1 : List ℚ) (t : ℚ) : Option Area × ℚ :=
  bestOverlapFrom bbox1 t (none, 0) areas2

/-- The merged record built by the reconciler when an Agent-1 area has a
best match: Agent 1 bbox and grid coords, a 50/50 confidence blend,
type/severity from the side with the higher confidence (ties favour
Agent 1), both original confidences and the match IoU. -/
def mergedRecord (a1 a2 : Area) (iou : ℚ) : OverlapArea :=
  { bbox := a1.bbox
    grid_coords := a1.grid_coords
    confidence := a1.confidence * (1/2) + a2.confidence * (1/2)
    damage_type := if a2.confidence ≤ a1.confidence then a1.damage_type else a2.damage_type
    severity := if a2.confidence ≤ a1.confidence then a1.severity else a2.severity
    agent1_confidence := a1.confidence
    agent2_confidence := a2.confidence
    overlap_score := iou }

/-- The singly-attributed record for an unmatched Agent-1 area
(`{**area1, 'agent1_confidence': .., 'agent2_confidence': 0.0,
'overlap_score': 0.0}`). -/
def singleA (a1 : Area) : OverlapArea :=
  { bbox := a1.bbox, grid_coords := a1.grid_coords, confidence := a1.confidence
    damage_type := a1.damage_type, severity := a1.severity
    agent1_confidence := a1.confidence, agent2_confidence := 0, overlap_score := 0 }

/-- The singly-attributed record for an unmatched Agent-2 area. -/
def singleB (a2 : Area) : OverlapArea :=
  { bbox := a2.bbox, grid_coords := a2.grid_coords, confidence := a2.confidence
    damage_type := a2.damage_type, severity := a2.severity
    agent1_confidence := 0, agent2_confidence := a2.confidence, overlap_score := 0 }

/-- The record the reconciler emits for one Agent-1 area: merged when a
best match above the threshold exists, singly attributed otherwise. -/
def reconcileA (areas2 : List Area) (t : ℚ) (a1 : Area) : OverlapArea :=
  match bestOverlap areas2 a1.bbox t with
  | (some a2, bi) => mergedRecord a1 a2 bi
  | (none, _) => singleA a1

/-- The `has_overlap` test of the reconciler's second loop: does any
Agent-1 area with a 4-element bbox overlap `bbox2` strictly above the
threshold? -/
def hasOverlapWithA (areas1 : List Area) (bbox2 : List ℚ) (t : ℚ) : Bool :=
  areas1.any fun a1 =>
    decide (a1.bbox.length = 4) && decide (t < calculate_overlap a1.bbox bbox2)

/-- The cross-pass reconciler of `agent-overlay/handler.py` (lines
96-175): first loop over the Agent-1 areas (skipping malformed bboxes),
then append every Agent-2 area with a 4-element bbox that overlaps no
Agent-1 area above the threshold. -/
def reconcile (areas1 areas2 : List Area) (t : ℚ) : List OverlapArea :=
  (areas1.filterMap fun a1 =>
    if decide (a1.bbox.length = 4) then some (reconcileA areas2 t a1) else none) ++
  (areas2.filterMap fun a2 =>
    if decide (a2.bbox.length = 4) && !(hasOverlapWithA areas1 a2.bbox t)
    then some (singleB a2) else none)

/-- A box row of the NMS input array `boxes_xyxy`. -/
structure NBox where
  x1 : ℚ
  y1 : ℚ
  x2 : ℚ
  y2 : ℚ
deriving DecidableEq

/-- Pairwise IoU of `single_agent._nms`: widths and heights are clamped
at 0, and the union is clamped from below at `1e-5` (modelled exactly as
1/100000) instead of guarding the division. -/
def nmsIou (boxes : List NBox) (i j : ℕ) : ℚ :=
  let bi := boxes.getD i ⟨0, 0, 0, 0⟩
  let bj := boxes.getD j ⟨0, 0, 0, 0⟩
  let xx1 := max bi.x1 bj.x1
  let yy1 := max bi.y1 bj.y1
  let xx2 := min bi.x2 bj.x2
  let yy2 := min bi.y2 bj.y2
  let w := max 0 (xx2 - xx1)
  let h := max 0 (yy2 - yy1)
  let inter := w * h
  let areaI := (bi.x2 - bi.x1) * (bi.y2 - bi.y1)
  let areaJ := (bj.x2 - bj.x1) * (bj.y2 - bj.y1)
  inter / max (areaI + areaJ - inter) (1/100000)

/-- Index order realising `scores.argsort()`: ascending score, ties by
ascending index.  NumPy's default sort is unspecified on ties; it is
modelled as this canonical stable ascending order (for two tied
elements every comparison sort agrees with it). -/
def idxLe (scores : List ℚ) (i j : ℕ) : Prop :=
  scores.getD i 0 < scores.getD j 0 ∨ (scores.getD i 0 = scores.getD j 0 ∧ i ≤ j)

instance (scores : List ℚ) : DecidableRel (idxLe scores) := fun _ _ => by
  unfold idxLe; infer_instance

/-- Embedding of `scores.argsort()`: the indices `0..n-1` in ascending score order. -/
def argsortAsc (scores : List ℚ) : List ℕ :=
  (List.range scores.length).insertionSort (idxLe scores)

/-- Embedding of `scores.argsort()[::-1]`: descending score order; reversal puts tied
scores in descending index order. -/
def argsortDesc (scores : List ℚ) : List ℕ :=
  (argsortAsc scores).reverse

/-- The `while idxs.size > 0` loop of `single_agent._nms`: keep the
first remaining index, drop the rest whose IoU with it strictly exceeds
the threshold (`idxs = rest[ious <= iou_threshold]` keeps the others).
The fuel argument bounds the iterations; the initial list length
suffices since each iteration strictly shrinks the list. -/
def nmsLoop (boxes : List NBox) (t : ℚ) : ℕ → List ℕ → List ℕ
  | 0, _ => []
  | _, [] => []
  | fuel + 1, current :: rest =>
      current :: nmsLoop boxes t fuel (rest.filter fun j => decide (nmsIou boxes current j ≤ t))

/-- Embedding of `single_agent._nms`. -/
def nms (boxes : List NBox) (scores : List ℚ) (t : ℚ) : List ℕ :=
  nmsLoop boxes t (argsortDesc scores).length (argsortDesc scores)

/-- Modelled from the spec (§4.2 step 3): the index of the
highest-confidence box among the remaining ones.  Ties are resolved
towards the later-encountered (larger) index, which is what the code's
reversed ascending sort realises. -/
def pickBest (scores : List ℚ) : List ℕ → Option ℕ
  | [] => none
  | x :: xs =>
      some (xs.foldl
        (fun b j =>
          if scores.getD b 0 < scores.getD j 0 ∨
              (scores.getD b 0 = scores.getD j 0 ∧ b < j) then j else b) x)

/-- Modelled from the spec (§4.2 step 3): greedy NMS as the claim states
it — repeatedly keep the highest-confidence remaining box and drop every
remaining box whose IoU with it strictly exceeds the threshold. -/
def greedyLoop (boxes : List NBox) (scores : List ℚ) (t : ℚ) : ℕ → List ℕ → List ℕ
  | 0, _ => []
  | _ + 1, [] => []
  | fuel + 1, rem =>
      match pickBest scores rem with
      | none => []
      | some i =>
          i :: greedyLoop boxes scores t fuel
            (rem.filter fun j => decide (j ≠ i) && decide (nmsIou boxes i j ≤ t))

/-- Python `int()`: truncation towards zero. -/
def ratTrunc (q : ℚ) : ℤ :=
  if 0 ≤ q then ⌊q⌋ else ⌈q⌉

/-- Embedding of `np.clip(s, 0.0, 1.0)` for a single score. -/
def clip01 (q : ℚ) : ℚ := min 1 (max 0 q)

/-- Embedding of `single_agent._clip_box`: clamp coordinates into the image and nudge
the far corner when clamping collapses the box. -/
def clipBox (b : NBox) (width height : ℤ) : List ℤ :=
  let x1 := max 0 (min (width - 1) (ratTrunc b.x1))
  let y1 := max 0 (min (height - 1) (ratTrunc b.y1))
  let x2 := max 0 (min width (ratTrunc b.x2))
  let y2 := max 0 (min height (ratTrunc b.y2))
  let x2c := if x2 ≤ x1 then min width (x1 + 1) else x2
  let y2c := if y2 ≤ y1 then min height (y1 + 1) else y2
  [x1, y1, x2c, y2c]

/-- Embedding of `np.argmax` over one row of class scores together with the maximum
value: first index of the maximum.  The `([], _)` default is only
reached on an empty row, where NumPy would raise; the decoder returns
before using it (`class_scores.size == 0` exit). -/
def argmaxRow : List ℚ → ℕ × ℚ
  | [] => (0, 0)
  | x :: xs =>
      let r := xs.foldl
        (fun (acc : ℕ × ℚ × ℕ) v =>
          if acc.2.1 < v then (acc.2.2, v, acc.2.2 + 1)
          else (acc.1, acc.2.1, acc.2.2 + 1))
        (0, x, 1)
      (r.1, r.2.1)

/-- Center-form to corner-form conversion plus letterbox undo, from
`run_yolo_inference` (`boxes_xyxy` construction): the wildcard branch is
unreachable for rectangular prediction arrays with at least one class
score column. -/
def centerToCorner (row : List ℚ) (ratio : ℚ × ℚ) (dw dh : ℚ) : NBox :=
  match row with
  | cx :: cy :: w :: h :: _ =>
      { x1 := (cx - w / 2 - dw) / ratio.1
        y1 := (cy - h / 2 - dh) / ratio.2
        x2 := (cx + w / 2 - dw) / ratio.1
        y2 := (cy + h / 2 - dh) / ratio.2 }
  | _ => ⟨0, 0, 0, 0⟩

/-- Embedding of `labels = class_names or default_classes`: Python `or` falls back on
`None` and on an empty list alike. -/
def labelsOf : Option (List String) → List String
  | some l => if l = [] then ["roof_damage"] else l
  | none => ["roof_damage"]

/-- A decoded detection candidate as built by `run_yolo_inference`. -/
structure Detection where
  bbox : List ℤ
  confidence : ℚ
  damage_type : String
  source : String
  model_class_id : ℕ
deriving DecidableEq

/-- The candidate-decoding core of `single_agent.run_yolo_inference`
(lines 321-374), from the 2-D prediction array onward: split off the
per-anchor class scores, return `[]` when they are empty; take the
per-anchor maximum class score (clipped into [0,1]), return `[]` when no
anchor reaches `confThreshold`; convert the surviving boxes to image
coordinates, run NMS and build the detection records.  The surrounding
I/O (image decode, letterbox, model run) supplies `predictions`,
`ratio` and `dw`/`dh`; the optional roof-location filtering that follows
in the source needs pixel data and is outside this decode core (both
empty-return paths of the claim precede it, and it maps `[]` to `[]`). -/
def run_yolo_decode (predictions : List (List ℚ)) (classNames : Option (List String))
    (confThreshold iouThreshold : ℚ) (ratio : ℚ × ℚ) (dw dh : ℚ)
    (origW origH : ℤ) : List Detection :=
  let classScores := predictions.map fun row => row.drop 4
  if (classScores.map (·.length)).sum = 0 then []
  else
    let rows := predictions.map fun row =>
      let am := argmaxRow (row.drop 4)
      (row, am.1, clip01 am.2)
    let validRows := rows.filter fun r => decide (confThreshold ≤ r.2.2)
    if validRows = [] then []
    else
      let boxes := validRows.map fun r => centerToCorner r.1 ratio dw dh
      let scores := validRows.map fun r => r.2.2
      let keep := nms boxes scores iouThreshold
      let labels := labelsOf classNames
      keep.map fun idx =>
        let classId := (validRows.getD idx ([], 0, 0)).2.1
        { bbox := clipBox (boxes.getD idx ⟨0, 0, 0, 0⟩) origW origH
          confidence := scores.getD idx 0
          damage_type := labels.getD classId ("class_" ++ toString classId)
          source := "yolo"
          model_class_id := classId }

/-- Embedding of `image_utils.pixel_to_grid_coords`, returned as a `(row, col)`
pair. -/
def pixel_to_grid_coords (x y : ℤ) (image_width image_height grid_size : ℤ) : ℤ × ℤ :=
  let col := ratTrunc ((x : ℚ) / (image_width : ℚ) * (grid_size : ℚ))
  let row := ratTrunc ((y : ℚ) / (image_height : ℚ) * (grid_size : ℚ))
  (min row (grid_size - 1), min col (grid_size - 1))

/-- Embedding of `image_utils.bbox_to_grid_coords`: grid cell of the bbox centroid;
a non-4-element bbox maps to cell (0,0). -/
def bbox_to_grid_coords (bbox : List ℚ) (image_width image_height grid_size : ℤ) : ℤ × ℤ :=
  match bbox with
  | [x1, y1, x2, y2] =>
      pixel_to_grid_coords (ratTrunc ((x1 + x2) / 2)) (ratTrunc ((y1 + y2) / 2))
        image_width image_height grid_size
  | _ => (0, 0)

/-- The IoU value of each working-list entry as seen by the fusion
merge: 0 for entries without a 4-element bbox (the scan skips them and
its running best starts at 0). -/
def valOf (bbox : List ℚ) (ex : Area) : ℚ :=
  if ex.bbox.length = 4 then calculate_overlap ex.bbox bbox else 0

/-- Modelled from the spec (§4.5): the best IoU between a candidate bbox
and the working list (0 when nothing overlaps). -/
def maxIouVals (w : List Area) (bbox : List ℚ) : ℚ :=
  (w.map (valOf bbox)).foldr max 0

/-- The reconciler-side IoU value of each Agent-2 entry (argument order
`calculate_overlap(bbox1, bbox2)` as in the source's first loop). -/
def valTo (bbox1 : List ℚ) (a2 : Area) : ℚ :=
  if a2.bbox.length = 4 then calculate_overlap bbox1 a2.bbox else 0

/-- Modelled from the spec (§4.7): the best IoU between an Agent-1 bbox
and the Agent-2 list. -/
def maxIouTo (areas2 : List Area) (bbox1 : List ℚ) : ℚ :=
  (areas2.map (valTo bbox1)).foldr max 0

/-! ## Helper lemmas -/

theorem length_eq_four {α : Type} {l : List α} (h : l.length = 4) :
    ∃ a b c d, l = [a, b, c, d] := by
  cases l with
  | nil => simp at h
  | cons a l1 =>
    have h3 : l1.length = 3 := by simpa using h
    obtain ⟨b, c, d, rfl⟩ := List.length_eq_three.mp h3
    exact ⟨a, b, c, d, rfl⟩

theorem filterMap_guard {α β : Type} (g : α → β) (q : α → Bool) (l : List α) :
    (l.filterMap fun a => if q a then some (g a) else none) = (l.filter q).map g := by
  induction l with
  | nil => rfl
  | cons x xs ih =>
    by_cases h : q x <;> simp [List.filterMap_cons, List.filter_cons, h, ih]

/-- The fusion best-match scan either leaves the accumulator untouched or
returns some list member with a 4-element bbox whose IoU strictly
improves on the accumulator. -/
theorem bestFrom_cases (bbox : List ℚ) (l : List Area) :
    ∀ (k : ℕ) (acc : Option (ℕ × Area) × ℚ),
      bestFrom bbox k acc l = acc ∨
      ∃ k2 ex, ex ∈ l ∧ ex.bbox.length = 4 ∧
        bestFrom bbox k acc l = (some (k2, ex), calculate_overlap ex.bbox bbox) ∧
        acc.2 < calculate_overlap ex.bbox bbox := by
  induction l with
  | nil => intro k acc; exact Or.inl rfl
  | cons x rest ih =>
    intro k acc
    by_cases hv : x.bbox.length = 4
    · by_cases hup : acc.2 < calculate_overlap x.bbox bbox
      · have heq : bestFrom bbox k acc (x :: rest) =
            bestFrom bbox (k + 1) (some (k, x), calculate_overlap x.bbox bbox) rest := by
          simp [bestFrom, hv, hup]
        rcases ih (k + 1) (some (k, x), calculate_overlap x.bbox bbox) with h | ⟨k2, ex, hm, hv2, he, hlt⟩
        · exact Or.inr ⟨k, x, List.mem_cons_self x rest, hv, by rw [heq, h], hup⟩
        · exact Or.inr ⟨k2, ex, List.mem_cons_of_mem x hm, hv2, by rw [heq, he],
            lt_trans hup hlt⟩
      · have heq : bestFrom bbox k acc (x :: rest) = bestFrom bbox (k + 1) acc rest := by
          simp [bestFrom, hv, hup]
        rcases ih (k + 1) acc with h | ⟨k2, ex, hm, hv2, he, hlt⟩
        · exact Or.inl (heq.trans h)
        · exact Or.inr ⟨k2, ex, List.mem_cons_of_mem x hm, hv2, heq.trans he, hlt⟩
    · have heq : bestFrom bbox k acc (x :: rest) = bestFrom bbox (k + 1) acc rest := by
        simp [bestFrom, hv]
      rcases ih (k + 1) acc with h | ⟨k2, ex, hm, hv2, he, hlt⟩
      · exact Or.inl (heq.trans h)
      · exact Or.inr ⟨k2, ex, List.mem_cons_of_mem x hm, hv2, heq.trans he, hlt⟩

/-- A secondary candidate whose IoU with every working-list entry is zero
or below the threshold is appended. -/
theorem mergeStep_append_of_far (t : ℚ) (w : List Area) (c : Area)
    (hc : c.bbox.length = 4)
    (hfar : ∀ b ∈ w,
      calculate_overlap b.bbox c.bbox = 0 ∨ calculate_overlap b.bbox c.bbox < t) :
    mergeStep t w c = w ++ [c] := by
  rcases bestFrom_cases c.bbox w 0 (none, 0) with h | ⟨k2, ex, hm, hv2, he, hlt⟩
  · have hbe : bestExisting w c.bbox = (none, 0) := h
    simp [mergeStep, hc, hbe]
  · have hbe : bestExisting w c.bbox = (some (k2, ex), calculate_overlap ex.bbox c.bbox) := he
    have hnle : ¬ t ≤ calculate_overlap ex.bbox c.bbox := by
      rcases hfar ex hm with h0 | hlt2
      · rw [h0] at hlt; exact absurd hlt (lt_irrefl 0)
      · exact not_le.mpr hlt2
    simp [mergeStep, hc, hbe, hnle]

/-- Folding pairwise-non-matching, well-formed candidates into a working
list they do not match simply appends them all. -/
theorem foldl_mergeStep_disjoint (t : ℚ) (s : List Area) :
    ∀ w : List Area,
      (∀ a ∈ s, a.bbox.length = 4) →
      (∀ b ∈ w, ∀ a ∈ s,
        calculate_overlap b.bbox a.bbox = 0 ∨ calculate_overlap b.bbox a.bbox < t) →
      List.Pairwise (fun a b =>
        calculate_overlap a.bbox b.bbox = 0 ∨ calculate_overlap a.bbox b.bbox < t) s →
      s.foldl (mergeStep t) w = w ++ s := by
  induction s with
  | nil => intro w _ _ _; simp
  | cons a rest ih =>
    intro w hv hw hp
    rw [List.foldl_cons,
      mergeStep_append_of_far t w a (hv a (List.mem_cons_self a rest))
        (fun b hb => hw b hb a (List.mem_cons_self a rest)),
      ih (w ++ [a]) (fun x hx => hv x (List.mem_cons_of_mem a hx)) ?_ hp.of_cons]
    · simp
    · intro b hb x hx
      rcases List.mem_append.mp hb with hbw | hba
      · exact hw b hbw x (List.mem_cons_of_mem a hx)
      · rw [List.mem_singleton.mp hba]
        exact (List.pairwise_cons.mp hp).1 x hx

/-! ## Claim theorems -/

/-- C5: IoU basic laws.  (1) For every bbox with `x2 > x1` and `y2 > y1`,
`calculate_overlap a a = 1`.  (2) For every pair of boxes that do not
overlap on at least one axis (the code tests with `<=`),
`calculate_overlap a b = 0`.  (3) Whenever the union expression
`area1 + area2 - inter` computed by the code is zero the result is 0.
Totality of the Lean definition witnesses that the function never raises
on 4-element input. -/
theorem iou_basic_laws :
    (∀ x1 y1 x2 y2 : ℚ, x1 < x2 → y1 < y2 →
        calculate_overlap [x1, y1, x2, y2] [x1, y1, x2, y2] = 1) ∧
    (∀ ax1 ay1 ax2 ay2 bx1 by1 bx2 by2 : ℚ,
        (ax2 ≤ bx1 ∨ bx2 ≤ ax1 ∨ ay2 ≤ by1 ∨ by2 ≤ ay1) →
        calculate_overlap [ax1, ay1, ax2, ay2] [bx1, by1, bx2, by2] = 0) ∧
    (∀ ax1 ay1 ax2 ay2 bx1 by1 bx2 by2 : ℚ,
        (ax2 - ax1) * (ay2 - ay1) + (bx2 - bx1) * (by2 - by1) -
          (min ax2 bx2 - max ax1 bx1) * (min ay2 by2 - max ay1 by1) = 0 →
        calculate_overlap [ax1, ay1, ax2, ay2] [bx1, by1, bx2, by2] = 0) := by
  refine ⟨?_, ?_, ?_⟩
  · intro x1 y1 x2 y2 hx hy
    have harea : (x2 - x1) * (y2 - y1) ≠ 0 :=
      ne_of_gt (mul_pos (by linarith) (by linarith))
    simp only [calculate_overlap, max_self, min_self]
    rw [if_neg (by push_neg; exact ⟨hx, hy⟩), add_sub_cancel_right,
      if_neg harea, div_self harea]
  · intro ax1 ay1 ax2 ay2 bx1 by1 bx2 by2 h
    simp only [calculate_overlap]
    rw [if_pos]
    rcases h with h | h | h | h
    · exact Or.inl (le_trans (min_le_left _ _) (le_trans h (le_max_right _ _)))
    · exact Or.inl (le_trans (min_le_right _ _) (le_trans h (le_max_left _ _)))
    · exact Or.inr (le_trans (min_le_left _ _) (le_trans h (le_max_right _ _)))
    · exact Or.inr (le_trans (min_le_right _ _) (le_trans h (le_max_left _ _)))
  · intro ax1 ay1 ax2 ay2 bx1 by1 bx2 by2 h
    simp only [calculate_overlap]
    split_ifs <;> rfl

/-- Witness for C5 at concrete boxes. -/
theorem iou_basic_laws_witness :
    calculate_overlap [0, 0, 2, 2] [0, 0, 2, 2] = 1 ∧
    calculate_overlap [0, 0, 1, 1] [1, 0, 2, 1] = 0 ∧
    calculate_overlap [0, 0, 0, 0] [0, 0, 0, 0] = 0 :=
  ⟨iou_basic_laws.1 0 0 2 2 (by norm_num) (by norm_num),
   iou_basic_laws.2.1 0 0 1 1 1 0 2 1 (Or.inl le_rfl),
   iou_basic_laws.2.2 0 0 0 0 0 0 0 0 (by norm_num)⟩

/-- C10: `calculate_overlap` is symmetric on all 4-element boxes, with no
validity precondition. -/
theorem iou_symm (ax1 ay1 ax2 ay2 bx1 by1 bx2 by2 : ℚ) :
    calculate_overlap [ax1, ay1, ax2, ay2] [bx1, by1, bx2, by2] =
    calculate_overlap [bx1, by1, bx2, by2] [ax1, ay1, ax2, ay2] := by
  simp only [calculate_overlap, max_comm bx1 ax1, max_comm by1 ay1,
    min_comm bx2 ax2, min_comm by2 ay2]
  rw [add_comm ((bx2 - bx1) * (by2 - by1)) ((ax2 - ax1) * (ay2 - ay1))]

/-- C4 counterexample: `merge([], secondary, t) == secondary` fails as
stated — two identical secondary candidates (IoU 1, equal confidence)
collapse to one, because the second matches the first inside the growing
working copy and equal confidence does not overwrite. -/
theorem merge_empty_identity_cex :
    merge_damage_areas []
      [⟨[0, 0, 10, 10], 1/2, "crack", "moderate", none⟩,
       ⟨[0, 0, 10, 10], 1/2, "crack", "moderate", none⟩] (2/5) ≠
    [⟨[0, 0, 10, 10], 1/2, "crack", "moderate", none⟩,
     ⟨[0, 0, 10, 10], 1/2, "crack", "moderate", none⟩] := by
  with_unfolding_all decide

/-- C4 amended: `merge(primary, [], t) == primary` holds unconditionally;
`merge([], secondary, t) == secondary` holds when every secondary
candidate has a 4-element bbox and no earlier candidate matches a later
one (pairwise IoU zero or strictly below the threshold). -/
theorem merge_empty_identity_amended :
    (∀ (p : List Area) (t : ℚ), merge_damage_areas p [] t = p) ∧
    (∀ (s : List Area) (t : ℚ),
      (∀ a ∈ s, a.bbox.length = 4) →
      List.Pairwise (fun a b =>
        calculate_overlap a.bbox b.bbox = 0 ∨ calculate_overlap a.bbox b.bbox < t) s →
      merge_damage_areas [] s t = s) := by
  refine ⟨fun p t => rfl, fun s t hv hp => ?_⟩
  have h := foldl_mergeStep_disjoint t s [] hv (by intro b hb; simp at hb) hp
  simpa [merge_damage_areas] using h

/-- Witness for C4 at two disjoint candidates. -/
theorem merge_empty_identity_amended_witness :
    merge_damage_areas []
      [⟨[0, 0, 10, 10], 1/2, "crack", "moderate", none⟩,
       ⟨[20, 20, 30, 30], 3/4, "stain", "minor", none⟩] (2/5) =
    [⟨[0, 0, 10, 10], 1/2, "crack", "moderate", none⟩,
     ⟨[20, 20, 30, 30], 3/4, "stain", "minor", none⟩] :=
  merge_empty_identity_amended.2
    [⟨[0, 0, 10, 10], 1/2, "crack", "moderate", none⟩,
     ⟨[20, 20, 30, 30], 3/4, "stain", "minor", none⟩] (2/5)
    (by with_unfolding_all decide) (by with_unfolding_all decide)

/-- C6: the oversized-region guard.  With positive dimensions and
4-element bboxes: (1) an entry fails the keep-predicate exactly when the
original list has more than one candidate and its bbox area fraction
strictly exceeds `max_fraction`; (2) the output is the kept sublist
unless that is empty, in which case the original list is returned
unchanged; (3) a non-empty input never yields an empty output. -/
theorem filter_large_guard (l : List Area) (w h : ℤ) (f : ℚ)
    (hw : 0 < w) (hh : 0 < h) (hvalid : ∀ a ∈ l, a.bbox.length = 4) :
    (∀ a ∈ l, keepArea l ((w : ℚ) * (h : ℚ)) f a = false ↔
      1 < l.length ∧ f < bboxArea a.bbox / ((w : ℚ) * (h : ℚ))) ∧
    (filter_large_damage_areas l w h f =
      if l.filter (keepArea l ((w : ℚ) * (h : ℚ)) f) = [] then l
      else l.filter (keepArea l ((w : ℚ) * (h : ℚ)) f)) ∧
    (l ≠ [] → filter_large_damage_areas l w h f ≠ []) := by
  have hwh : ((w : ℚ) * (h : ℚ)) ≠ 0 :=
    mul_ne_zero (Int.cast_ne_zero.mpr hw.ne') (Int.cast_ne_zero.mpr hh.ne')
  have hdim : ¬ (w ≤ 0 ∨ h ≤ 0) := by push_neg; exact ⟨hw, hh⟩
  have h2 : filter_large_damage_areas l w h f =
      if l.filter (keepArea l ((w : ℚ) * (h : ℚ)) f) = [] then l
      else l.filter (keepArea l ((w : ℚ) * (h : ℚ)) f) := by
    simp only [filter_large_damage_areas, if_neg hdim]
  refine ⟨?_, h2, ?_⟩
  · intro a ha
    obtain ⟨x1, y1, x2, y2, hb⟩ := length_eq_four (hvalid a ha)
    simp [keepArea, hb, bboxArea, hwh]
  · intro hne
    rw [h2]
    split_ifs with hft
    · exact hne
    · exact hft

/-- Witness for C6: the spec scenario — a bbox covering 60% of a 100×100
image is removed when a smaller candidate is present, kept when it is
alone. -/
theorem filter_large_guard_witness :
    filter_large_damage_areas
      [⟨[0, 0, 100, 60], 1/2, "stain", "moderate", none⟩,
       ⟨[0, 0, 10, 10], 1/2, "crack", "minor", none⟩] 100 100 (45/100) =
      [⟨[0, 0, 10, 10], 1/2, "crack", "minor", none⟩] ∧
    filter_large_damage_areas
      [⟨[0, 0, 100, 60], 1/2, "stain", "moderate", none⟩] 100 100 (45/100) =
      [⟨[0, 0, 100, 60], 1/2, "stain", "moderate", none⟩] := by
  constructor
  · rw [(filter_large_guard
      [⟨[0, 0, 100, 60], 1/2, "stain", "moderate", none⟩,
       ⟨[0, 0, 10, 10], 1/2, "crack", "minor", none⟩] 100 100 (45/100)
      (by norm_num) (by norm_num) (by with_unfolding_all decide)).2.1]
    with_unfolding_all decide
  · rw [(filter_large_guard
      [⟨[0, 0, 100, 60], 1/2, "stain", "moderate", none⟩] 100 100 (45/100)
      (by norm_num) (by norm_num) (by with_unfolding_all decide)).2.1]
    with_unfolding_all decide

/-- C9: the grid mapper returns the centroid cell of a 4-element bbox,
and for corners within the image, positive dimensions and `grid_size ≥ 1`
both coordinates are clamped into `[0, grid_size - 1]`. -/
theorem grid_coords_range (x1 y1 x2 y2 : ℚ) (w h g : ℤ)
    (hw : 0 < w) (hh : 0 < h) (hg : 1 ≤ g)
    (hx1 : 0 ≤ x1) (hx1w : x1 ≤ (w : ℚ)) (hx2 : 0 ≤ x2) (hx2w : x2 ≤ (w : ℚ))
    (hy1 : 0 ≤ y1) (hy1h : y1 ≤ (h : ℚ)) (hy2 : 0 ≤ y2) (hy2h : y2 ≤ (h : ℚ)) :
    bbox_to_grid_coords [x1, y1, x2, y2] w h g =
      pixel_to_grid_coords (ratTrunc ((x1 + x2) / 2)) (ratTrunc ((y1 + y2) / 2)) w h g ∧
    0 ≤ (bbox_to_grid_coords [x1, y1, x2, y2] w h g).1 ∧
    (bbox_to_grid_coords [x1, y1, x2, y2] w h g).1 ≤ g - 1 ∧
    0 ≤ (bbox_to_grid_coords [x1, y1, x2, y2] w h g).2 ∧
    (bbox_to_grid_coords [x1, y1, x2, y2] w h g).2 ≤ g - 1 := by
  have hcx : 0 ≤ (x1 + x2) / 2 := by positivity
  have hcy : 0 ≤ (y1 + y2) / 2 := by positivity
  have hg0 : (0 : ℤ) ≤ g - 1 := by omega
  have key : ∀ (q d : ℚ), 0 ≤ q → 0 ≤ d → 0 ≤ ratTrunc (q / d * (g : ℚ)) := by
    intro q d hq hd
    have hnn : 0 ≤ q / d * (g : ℚ) := by
      have : (0 : ℚ) ≤ (g : ℚ) := by exact_mod_cast (by omega : (0 : ℤ) ≤ g)
      positivity
    rw [ratTrunc, if_pos hnn]
    exact Int.floor_nonneg.mpr hnn
  have hix : 0 ≤ ratTrunc ((x1 + x2) / 2) := by
    rw [ratTrunc, if_pos hcx]; exact Int.floor_nonneg.mpr hcx
  have hiy : 0 ≤ ratTrunc ((y1 + y2) / 2) := by
    rw [ratTrunc, if_pos hcy]; exact Int.floor_nonneg.mpr hcy
  refine ⟨rfl, ?_, ?_, ?_, ?_⟩ <;>
    simp only [bbox_to_grid_coords, pixel_to_grid_coords]
  · exact le_min (key _ _ (by exact_mod_cast hiy) (by exact_mod_cast hh.le)) hg0
  · exact min_le_right _ _
  · exact le_min (key _ _ (by exact_mod_cast hix) (by exact_mod_cast hw.le)) hg0
  · exact min_le_right _ _

theorem le_foldr_max (l : List ℚ) (x : ℚ) (hx : x ∈ l) (init : ℚ) :
    x ≤ l.foldr max init := by
  induction l with
  | nil => cases hx
  | cons y ys ih =>
    rcases List.mem_cons.mp hx with rfl | hmem
    · exact le_max_left _ _
    · exact le_trans (ih hmem) (le_max_right _ _)

theorem init_le_foldr_max (l : List ℚ) (init : ℚ) : init ≤ l.foldr max init := by
  induction l with
  | nil => exact le_rfl
  | cons y ys ih => exact le_trans ih (le_max_right _ _)

theorem foldr_max_le (l : List ℚ) (c init : ℚ) (hc : ∀ x ∈ l, x ≤ c) (hi : init ≤ c) :
    l.foldr max init ≤ c := by
  induction l with
  | nil => exact hi
  | cons y ys ih =>
    exact max_le (hc y (List.mem_cons_self y ys))
      (ih fun x hx => hc x (List.mem_cons_of_mem y hx))

theorem maxIouTo_cons (bbox1 : List ℚ) (x : Area) (rest : List Area) :
    maxIouTo (x :: rest) bbox1 = max (valTo bbox1 x) (maxIouTo rest bbox1) := rfl

theorem maxIouTo_nonneg (l : List Area) (bbox1 : List ℚ) : 0 ≤ maxIouTo l bbox1 :=
  init_le_foldr_max _ 0

theorem valTo_le_maxIouTo (l : List Area) (bbox1 : List ℚ) (a2 : Area) (h : a2 ∈ l) :
    valTo bbox1 a2 ≤ maxIouTo l bbox1 :=
  le_foldr_max _ _ (List.mem_map_of_mem (valTo bbox1) h) 0

/-- The reconciler best-match scan leaves its accumulator untouched when
every entry has an IoU bounded by the accumulator or by the threshold. -/
theorem bestOverlapFrom_const (bbox1 : List ℚ) (t : ℚ) (l : List Area) :
    ∀ acc : Option Area × ℚ,
      (∀ a2 ∈ l, valTo bbox1 a2 ≤ acc.2 ∨ valTo bbox1 a2 ≤ t) →
      bestOverlapFrom bbox1 t acc l = acc := by
  induction l with
  | nil => intro acc _; rfl
  | cons x rest ih =>
    intro acc hb
    by_cases hv : x.bbox.length = 4
    · have hx := hb x (List.mem_cons_self x rest)
      rw [valTo, if_pos hv] at hx
      have hno : ¬ (acc.2 < calculate_overlap bbox1 x.bbox ∧
          t < calculate_overlap bbox1 x.bbox) := by
        rcases hx with hx | hx
        · exact fun hcon => absurd hx (not_le.mpr hcon.1)
        · exact fun hcon => absurd hx (not_le.mpr hcon.2)
      simp only [bestOverlapFrom, if_pos hv, if_neg hno]
      exact ih acc fun a2 ha => hb a2 (List.mem_cons_of_mem x ha)
    · simp only [bestOverlapFrom, if_neg hv]
      exact ih acc fun a2 ha => hb a2 (List.mem_cons_of_mem x ha)

/-- When some entry strictly exceeds both the accumulator and the
threshold, the reconciler best-match scan returns the first entry
attaining the maximal IoU, together with that IoU. -/
theorem bestOverlapFrom_max (bbox1 : List ℚ) (t : ℚ) (l : List Area) :
    ∀ acc : Option Area × ℚ, 0 ≤ acc.2 →
      acc.2 < maxIouTo l bbox1 → t < maxIouTo l bbox1 →
      ∃ (j : ℕ) (a2 : Area), l[j]? = some a2 ∧ valTo bbox1 a2 = maxIouTo l bbox1 ∧
        (∀ (m : ℕ) (b : Area), m < j → l[m]? = some b → valTo bbox1 b ≠ maxIouTo l bbox1) ∧
        bestOverlapFrom bbox1 t acc l = (some a2, maxIouTo l bbox1) := by
  induction l with
  | nil =>
    intro acc h0 hlt _
    exact absurd hlt (not_lt.mpr (by simpa [maxIouTo] using h0))
  | cons x rest ih =>
    intro acc h0 hlt ht
    by_cases hx : valTo bbox1 x = maxIouTo (x :: rest) bbox1
    · have hpos : 0 < maxIouTo (x :: rest) bbox1 := lt_of_le_of_lt h0 hlt
      have hv : x.bbox.length = 4 := by
        by_contra hnv
        rw [valTo, if_neg hnv] at hx
        rw [← hx] at hpos
        exact lt_irrefl 0 hpos
      have hcx : calculate_overlap bbox1 x.bbox = maxIouTo (x :: rest) bbox1 := by
        rw [← hx, valTo, if_pos hv]
      have hcond : acc.2 < calculate_overlap bbox1 x.bbox ∧
          t < calculate_overlap bbox1 x.bbox := by rw [hcx]; exact ⟨hlt, ht⟩
      have hstep : bestOverlapFrom bbox1 t acc (x :: rest) =
          bestOverlapFrom bbox1 t (some x, calculate_overlap bbox1 x.bbox) rest := by
        simp only [bestOverlapFrom, if_pos hv, if_pos hcond]
      have hrest : bestOverlapFrom bbox1 t (some x, calculate_overlap bbox1 x.bbox) rest =
          (some x, calculate_overlap bbox1 x.bbox) := by
        apply bestOverlapFrom_const
        intro a2 ha
        left
        rw [hcx]
        exact le_trans (valTo_le_maxIouTo rest bbox1 a2 ha)
          (by rw [maxIouTo_cons]; exact le_max_right _ _)
      refine ⟨0, x, by simp, hx, ?_, ?_⟩
      · intro m b hm
        omega
      · rw [hstep, hrest, hcx]
    · have hMr : maxIouTo (x :: rest) bbox1 = maxIouTo rest bbox1 := by
        rcases max_cases (valTo bbox1 x) (maxIouTo rest bbox1) with ⟨he, _⟩ | ⟨he, _⟩
        · exact absurd (by rw [maxIouTo_cons, he]) hx
        · rw [maxIouTo_cons, he]
      have step : ∀ acc2 : Option Area × ℚ, 0 ≤ acc2.2 → acc2.2 < maxIouTo rest bbox1 →
          bestOverlapFrom bbox1 t acc (x :: rest) = bestOverlapFrom bbox1 t acc2 rest →
          ∃ (j : ℕ) (a2 : Area), (x :: rest)[j]? = some a2 ∧
            valTo bbox1 a2 = maxIouTo (x :: rest) bbox1 ∧
            (∀ (m : ℕ) (b : Area), m < j → (x :: rest)[m]? = some b →
              valTo bbox1 b ≠ maxIouTo (x :: rest) bbox1) ∧
            bestOverlapFrom bbox1 t acc (x :: rest) = (some a2, maxIouTo (x :: rest) bbox1) := by
        intro acc2 h02 hlt2 hse
        obtain ⟨j, a2, hj, hval, hfirst, hres⟩ :=
          ih acc2 h02 hlt2 (by rw [hMr] at ht; exact ht)
        refine ⟨j + 1, a2, ?_, ?_, ?_, ?_⟩
        · rw [List.getElem?_cons_succ]; exact hj
        · rw [hMr]; exact hval
        · intro m b hm hmb
          cases m with
          | zero =>
            have hbx : x = b := by simpa using hmb
            rw [← hbx, hMr]
            rw [hMr] at hx
            exact hx
          | succ m2 =>
            rw [List.getElem?_cons_succ] at hmb
            rw [hMr]
            exact hfirst m2 b (by omega) hmb
        · rw [hse, hres, hMr]
      by_cases hv : x.bbox.length = 4
      · by_cases hcond : acc.2 < calculate_overlap bbox1 x.bbox ∧
            t < calculate_overlap bbox1 x.bbox
        · have hvx : valTo bbox1 x = calculate_overlap bbox1 x.bbox := by
            rw [valTo, if_pos hv]
          have hxlt : calculate_overlap bbox1 x.bbox < maxIouTo rest bbox1 := by
            have hle : valTo bbox1 x ≤ maxIouTo (x :: rest) bbox1 := by
              rw [maxIouTo_cons]; exact le_max_left _ _
            rw [hMr] at hle hx
            rw [hvx] at hle hx
            exact lt_of_le_of_ne hle hx
          exact step (some x, calculate_overlap bbox1 x.bbox)
            (le_trans h0 (le_of_lt hcond.1)) hxlt
            (by simp only [bestOverlapFrom, if_pos hv, if_pos hcond])
        · exact step acc h0 (by rw [hMr] at hlt; exact hlt)
            (by simp only [bestOverlapFrom, if_pos hv, if_neg hcond])
      · exact step acc h0 (by rw [hMr] at hlt; exact hlt)
          (by simp only [bestOverlapFrom, if_neg hv])

/-- The reconciler best-match search, characterised from the claim's
side: if `a2` sits at index `j` of the Agent-2 list, exceeds the
threshold, is IoU-maximal, and is the first entry attaining that
maximum, then the scan returns exactly `a2` with its IoU. -/
theorem bestOverlap_eq_spec (B : List Area) (bbox1 : List ℚ) (t : ℚ) (j : ℕ) (a2 : Area)
    (ht : 0 ≤ t)
    (hj : B[j]? = some a2) (hv2 : a2.bbox.length = 4)
    (hgt : t < calculate_overlap bbox1 a2.bbox)
    (hmax : ∀ b ∈ B, b.bbox.length = 4 →
      calculate_overlap bbox1 b.bbox ≤ calculate_overlap bbox1 a2.bbox)
    (hfirst : ∀ (k : ℕ) (b : Area), k < j → B[k]? = some b → b.bbox.length = 4 →
      calculate_overlap bbox1 b.bbox ≠ calculate_overlap bbox1 a2.bbox) :
    bestOverlap B bbox1 t = (some a2, calculate_overlap bbox1 a2.bbox) := by
  have hmem : a2 ∈ B := List.getElem?_mem hj
  have h0iou : 0 < calculate_overlap bbox1 a2.bbox := lt_of_le_of_lt ht hgt
  have hM : maxIouTo B bbox1 = calculate_overlap bbox1 a2.bbox := by
    apply le_antisymm
    · apply foldr_max_le
      · intro v hv
        obtain ⟨b, hb, rfl⟩ := List.mem_map.mp hv
        by_cases hvb : b.bbox.length = 4
        · rw [valTo, if_pos hvb]; exact hmax b hb hvb
        · rw [valTo, if_neg hvb]; exact le_of_lt h0iou
      · exact le_of_lt h0iou
    · have := valTo_le_maxIouTo B bbox1 a2 hmem
      rw [valTo, if_pos hv2] at this
      exact this
  obtain ⟨j2, a3, hj2, hval2, hfirst2, hres⟩ :=
    bestOverlapFrom_max bbox1 t B (none, 0) le_rfl (by rw [hM]; exact h0iou)
      (by rw [hM]; exact hgt)
  have hvalid3 : a3.bbox.length = 4 := by
    by_contra hnv
    rw [valTo, if_neg hnv] at hval2
    rw [hM] at hval2
    exact absurd hval2.symm (ne_of_gt h0iou)
  have hjeq : j2 = j := by
    rcases lt_trichotomy j2 j with hlt | heq | hgt2
    · exfalso
      apply hfirst j2 a3 hlt hj2 hvalid3
      rw [← hM]
      rw [valTo, if_pos hvalid3] at hval2
      exact hval2
    · exact heq
    · exfalso
      apply hfirst2 j a2 hgt2 hj
      rw [valTo, if_pos hv2, hM]
  have ha3 : a3 = a2 := by
    rw [hjeq] at hj2
    exact Option.some.inj (hj2.symm.trans hj)
  have hres2 : bestOverlap B bbox1 t = (some a3, maxIouTo B bbox1) := hres
  rw [hres2, ha3, hM]

/-- Under well-formed Agent-1 bboxes, the reconciler output is the
Agent-1 records followed by the unmatched Agent-2 singletons. -/
theorem reconcile_eq (A B : List Area) (t : ℚ) (hA : ∀ a ∈ A, a.bbox.length = 4) :
    reconcile A B t = A.map (reconcileA B t) ++
      (B.filter fun a2 =>
        decide (a2.bbox.length = 4) && !(hasOverlapWithA A a2.bbox t)).map singleB := by
  unfold reconcile
  rw [filterMap_guard (reconcileA B t) (fun a1 => decide (a1.bbox.length = 4)) A,
    filterMap_guard singleB
      (fun a2 => decide (a2.bbox.length = 4) && !(hasOverlapWithA A a2.bbox t)) B,
    List.filter_eq_self.mpr (fun a ha => decide_eq_true (hA a ha))]

/-- Each well-formed Agent-1 area produces exactly the record at its own
index of the reconciler output. -/
theorem reconcile_getElem_left (A B : List Area) (t : ℚ) (i : ℕ) (a1 : Area)
    (hA : ∀ a ∈ A, a.bbox.length = 4) (hi : A[i]? = some a1) :
    (reconcile A B t)[i]? = some (reconcileA B t a1) := by
  have hlen : i < A.length := (List.getElem?_eq_some.mp hi).1
  rw [reconcile_eq A B t hA,
    List.getElem?_append_left (by rw [List.length_map]; exact hlen),
    List.getElem?_map, hi]
  rfl

/-- C1 counterexample: the exactly-once representation fails.  With
`A = [a]` and `B = [b1, b2]`, both Agent-2 areas overlap `a` above the
threshold but only `b1` is the best match, so `b2` (confidence 7/10,
valid bbox) appears in no output record: the single output record is the
`a`/`b1` merge, and no record carries `b2`'s confidence anywhere. -/
theorem reconcile_exactly_once_cex :
    (⟨[0, 0, 10, 8], 7/10, "stain2", "moderate", none⟩ : Area) ∈
      ([⟨[0, 0, 10, 10], 6/10, "stain", "moderate", none⟩,
        ⟨[0, 0, 10, 8], 7/10, "stain2", "moderate", none⟩] : List Area) ∧
    (reconcile [⟨[0, 0, 10, 10], 9/10, "crack", "moderate", none⟩]
      [⟨[0, 0, 10, 10], 6/10, "stain", "moderate", none⟩,
       ⟨[0, 0, 10, 8], 7/10, "stain2", "moderate", none⟩] (3/10)).length = 1 ∧
    ∀ r ∈ reconcile [⟨[0, 0, 10, 10], 9/10, "crack", "moderate", none⟩]
      [⟨[0, 0, 10, 10], 6/10, "stain", "moderate", none⟩,
       ⟨[0, 0, 10, 8], 7/10, "stain2", "moderate", none⟩] (3/10),
      r.agent1_confidence ≠ 7/10 ∧ r.agent2_confidence ≠ 7/10 ∧
      r.confidence ≠ 7/10 ∧ r.damage_type ≠ "stain2" := by
  with_unfolding_all decide

/-- C1 amended: with well-formed bboxes on both sides, the output length
is `|A|` plus the number of Agent-2 areas overlapping no Agent-1 area
above the threshold (hence at most `|A| + |B|`), and every Agent-1 area
is represented exactly once, at its own index (merged or singly
attributed).  An Agent-2 area, however, may be dropped (matched above
the threshold without being any Agent-1 area's best match) or appear in
several merged records. -/
theorem reconcile_exactly_once_amended (A B : List Area) (t : ℚ)
    (hA : ∀ a ∈ A, a.bbox.length = 4) (hB : ∀ b ∈ B, b.bbox.length = 4) :
    (reconcile A B t).length =
      A.length + (B.filter fun b => !(hasOverlapWithA A b.bbox t)).length ∧
    (reconcile A B t).length ≤ A.length + B.length ∧
    ∀ (i : ℕ) (a1 : Area), A[i]? = some a1 → (reconcile A B t)[i]? = some (reconcileA B t a1) := by
  have hcongr : (B.filter fun a2 =>
      decide (a2.bbox.length = 4) && !(hasOverlapWithA A a2.bbox t)) =
      B.filter fun b => !(hasOverlapWithA A b.bbox t) :=
    List.filter_congr fun b hb => by rw [decide_eq_true (hB b hb), Bool.true_and]
  have hlen : (reconcile A B t).length =
      A.length + (B.filter fun b => !(hasOverlapWithA A b.bbox t)).length := by
    rw [reconcile_eq A B t hA, List.length_append, List.length_map, List.length_map, hcongr]
  refine ⟨hlen, ?_, fun i a1 hi => reconcile_getElem_left A B t i a1 hA hi⟩
  rw [hlen]
  exact Nat.add_le_add_left (List.length_filter_le _ B) A.length

/-- Witness for C1 at a one-element pair of lists. -/
theorem reconcile_exactly_once_amended_witness :
    (reconcile [⟨[0, 0, 10, 10], 9/10, "crack", "moderate", none⟩]
      [⟨[20, 20, 30, 30], 6/10, "stain", "moderate", none⟩] (3/10)).length =
      1 + (([⟨[20, 20, 30, 30], 6/10, "stain", "moderate", none⟩] : List Area).filter
        fun b => !(hasOverlapWithA
          [⟨[0, 0, 10, 10], 9/10, "crack", "moderate", none⟩] b.bbox (3/10))).length ∧
    (reconcile [⟨[0, 0, 10, 10], 9/10, "crack", "moderate", none⟩]
      [⟨[20, 20, 30, 30], 6/10, "stain", "moderate", none⟩] (3/10)).length ≤ 1 + 1 ∧
    (reconcile [⟨[0, 0, 10, 10], 9/10, "crack", "moderate", none⟩]
      [⟨[20, 20, 30, 30], 6/10, "stain", "moderate", none⟩] (3/10))[0]? =
      some (reconcileA [⟨[20, 20, 30, 30], 6/10, "stain", "moderate", none⟩] (3/10)
        ⟨[0, 0, 10, 10], 9/10, "crack", "moderate", none⟩) := by
  obtain ⟨h1, h2, h3⟩ := reconcile_exactly_once_amended
    [⟨[0, 0, 10, 10], 9/10, "crack", "moderate", none⟩]
    [⟨[20, 20, 30, 30], 6/10, "stain", "moderate", none⟩] (3/10)
    (by with_unfolding_all decide) (by with_unfolding_all decide)
  exact ⟨h1, h2, h3 0 _ rfl⟩

theorem maxIouVals_cons (bbox : List ℚ) (x : Area) (rest : List Area) :
    maxIouVals (x :: rest) bbox = max (valOf bbox x) (maxIouVals rest bbox) := rfl

theorem valOf_le_maxIouVals (l : List Area) (bbox : List ℚ) (ex : Area) (h : ex ∈ l) :
    valOf bbox ex ≤ maxIouVals l bbox :=
  le_foldr_max _ _ (List.mem_map_of_mem (valOf bbox) h) 0

/-- The fusion best-match scan leaves its accumulator untouched when
every entry's IoU is bounded by it. -/
theorem bestFrom_const (bbox : List ℚ) (l : List Area) :
    ∀ (k : ℕ) (acc : Option (ℕ × Area) × ℚ),
      (∀ ex ∈ l, valOf bbox ex ≤ acc.2) →
      bestFrom bbox k acc l = acc := by
  induction l with
  | nil => intro k acc _; rfl
  | cons x rest ih =>
    intro k acc hb
    by_cases hv : x.bbox.length = 4
    · have hx := hb x (List.mem_cons_self x rest)
      rw [valOf, if_pos hv] at hx
      have hno : ¬ acc.2 < calculate_overlap x.bbox bbox := not_lt.mpr hx
      simp only [bestFrom, if_pos hv, if_neg hno]
      exact ih (k + 1) acc fun ex ha => hb ex (List.mem_cons_of_mem x ha)
    · simp only [bestFrom, if_neg hv]
      exact ih (k + 1) acc fun ex ha => hb ex (List.mem_cons_of_mem x ha)

/-- When some entry strictly exceeds the accumulator, the fusion
best-match scan returns the index and entry of the first entry attaining
the maximal IoU, together with that IoU. -/
theorem bestFrom_max (bbox : List ℚ) (l : List Area) :
    ∀ (k : ℕ) (acc : Option (ℕ × Area) × ℚ), 0 ≤ acc.2 → acc.2 < maxIouVals l bbox →
      ∃ (j : ℕ) (ex : Area), l[j]? = some ex ∧ valOf bbox ex = maxIouVals l bbox ∧
        (∀ (m : ℕ) (b : Area), m < j → l[m]? = some b →
          valOf bbox b ≠ maxIouVals l bbox) ∧
        bestFrom bbox k acc l = (some (k + j, ex), maxIouVals l bbox) := by
  induction l with
  | nil =>
    intro k acc h0 hlt
    exact absurd hlt (not_lt.mpr (by simpa [maxIouVals] using h0))
  | cons x rest ih =>
    intro k acc h0 hlt
    by_cases hx : valOf bbox x = maxIouVals (x :: rest) bbox
    · have hpos : 0 < maxIouVals (x :: rest) bbox := lt_of_le_of_lt h0 hlt
      have hv : x.bbox.length = 4 := by
        by_contra hnv
        rw [valOf, if_neg hnv] at hx
        rw [← hx] at hpos
        exact lt_irrefl 0 hpos
      have hcx : calculate_overlap x.bbox bbox = maxIouVals (x :: rest) bbox := by
        rw [← hx, valOf, if_pos hv]
      have hcond : acc.2 < calculate_overlap x.bbox bbox := by rw [hcx]; exact hlt
      have hstep : bestFrom bbox k acc (x :: rest) =
          bestFrom bbox (k + 1) (some (k, x), calculate_overlap x.bbox bbox) rest := by
        simp only [bestFrom, if_pos hv, if_pos hcond]
      have hrest : bestFrom bbox (k + 1) (some (k, x), calculate_overlap x.bbox bbox) rest =
          (some (k, x), calculate_overlap x.bbox bbox) := by
        apply bestFrom_const
        intro ex ha
        rw [hcx]
        exact le_trans (valOf_le_maxIouVals rest bbox ex ha)
          (by rw [maxIouVals_cons]; exact le_max_right _ _)
      refine ⟨0, x, by simp, hx, ?_, ?_⟩
      · intro m b hm
        omega
      · rw [hstep, hrest, hcx, Nat.add_zero]
    · have hMr : maxIouVals (x :: rest) bbox = maxIouVals rest bbox := by
        rcases max_cases (valOf bbox x) (maxIouVals rest bbox) with ⟨he, _⟩ | ⟨he, _⟩
        · exact absurd (by rw [maxIouVals_cons, he]) hx
        · rw [maxIouVals_cons, he]
      have step : ∀ acc2 : Option (ℕ × Area) × ℚ, 0 ≤ acc2.2 →
          acc2.2 < maxIouVals rest bbox →
          bestFrom bbox k acc (x :: rest) = bestFrom bbox (k + 1) acc2 rest →
          ∃ (j : ℕ) (ex : Area), (x :: rest)[j]? = some ex ∧
            valOf bbox ex = maxIouVals (x :: rest) bbox ∧
            (∀ (m : ℕ) (b : Area), m < j → (x :: rest)[m]? = some b →
              valOf bbox b ≠ maxIouVals (x :: rest) bbox) ∧
            bestFrom bbox k acc (x :: rest) =
              (some (k + j, ex), maxIouVals (x :: rest) bbox) := by
        intro acc2 h02 hlt2 hse
        obtain ⟨j, ex, hj, hval, hfirst, hres⟩ := ih (k + 1) acc2 h02 hlt2
        refine ⟨j + 1, ex, ?_, ?_, ?_, ?_⟩
        · rw [List.getElem?_cons_succ]; exact hj
        · rw [hMr]; exact hval
        · intro m b hm hmb
          cases m with
          | zero =>
            have hbx : x = b := by simpa using hmb
            rw [← hbx, hMr]
            rw [hMr] at hx
            exact hx
          | succ m2 =>
            rw [List.getElem?_cons_succ] at hmb
            rw [hMr]
            exact hfirst m2 b (by omega) hmb
        · rw [hse, hres, hMr]
          have hk : (k + 1) + j = k + (j + 1) := by omega
          rw [hk]
      by_cases hv : x.bbox.length = 4
      · by_cases hcond : acc.2 < calculate_overlap x.bbox bbox
        · have hvx : valOf bbox x = calculate_overlap x.bbox bbox := by
            rw [valOf, if_pos hv]
          have hxlt : calculate_overlap x.bbox bbox < maxIouVals rest bbox := by
            have hle : valOf bbox x ≤ maxIouVals (x :: rest) bbox := by
              rw [maxIouVals_cons]; exact le_max_left _ _
            rw [hMr] at hle hx
            rw [hvx] at hle hx
            exact lt_of_le_of_ne hle hx
          exact step (some (k, x), calculate_overlap x.bbox bbox)
            (le_trans h0 (le_of_lt hcond)) hxlt
            (by simp only [bestFrom, if_pos hv, if_pos hcond])
        · exact step acc h0 (by rw [hMr] at hlt; exact hlt)
            (by simp only [bestFrom, if_pos hv, if_neg hcond])
      · exact step acc h0 (by rw [hMr] at hlt; exact hlt)
          (by simp only [bestFrom, if_neg hv])

/-- C3: the fusion merge policy.  `merge_damage_areas` folds each
secondary candidate into the growing primary copy; for a candidate with
a 4-element bbox and a positive threshold, when the best IoU over the
working copy is below the threshold the candidate is appended as a new
region, and when it is at least the threshold the first working-copy
entry attaining the best IoU is overwritten with the candidate exactly
when the candidate's confidence is strictly greater (otherwise the
working copy is unchanged). -/
theorem merge_best_policy (p s : List Area) (t : ℚ) (ht : 0 < t) :
    merge_damage_areas p s t = s.foldl (mergeStep t) p ∧
    ∀ (w : List Area) (c : Area), c.bbox.length = 4 →
      (maxIouVals w c.bbox < t → mergeStep t w c = w ++ [c]) ∧
      (t ≤ maxIouVals w c.bbox →
        ∃ (j : ℕ) (ex : Area), w[j]? = some ex ∧
          valOf c.bbox ex = maxIouVals w c.bbox ∧
          (∀ (m : ℕ) (b : Area), m < j → w[m]? = some b →
            valOf c.bbox b ≠ maxIouVals w c.bbox) ∧
          mergeStep t w c =
            (if ex.confidence < c.confidence then w.set j c else w)) := by
  refine ⟨rfl, fun w c hc => ⟨?_, ?_⟩⟩
  · intro hlt
    rcases bestFrom_cases c.bbox w 0 (none, 0) with h | ⟨k2, ex, hm, hv2, he, hpos⟩
    · have hbe : bestExisting w c.bbox = (none, 0) := h
      simp [mergeStep, hc, hbe]
    · have hbe : bestExisting w c.bbox =
          (some (k2, ex), calculate_overlap ex.bbox c.bbox) := he
      have hlef : calculate_overlap ex.bbox c.bbox ≤ maxIouVals w c.bbox := by
        have hb := valOf_le_maxIouVals w c.bbox ex hm
        rw [valOf, if_pos hv2] at hb
        exact hb
      have hnle : ¬ t ≤ calculate_overlap ex.bbox c.bbox :=
        not_le.mpr (lt_of_le_of_lt hlef hlt)
      simp [mergeStep, hc, hbe, hnle]
  · intro hge
    have h0M : 0 < maxIouVals w c.bbox := lt_of_lt_of_le ht hge
    obtain ⟨j, ex, hj, hval, hfirst, hres⟩ := bestFrom_max c.bbox w 0 (none, 0) le_rfl h0M
    have hbe : bestExisting w c.bbox = (some (0 + j, ex), maxIouVals w c.bbox) := hres
    rw [Nat.zero_add] at hbe
    refine ⟨j, ex, hj, hval, hfirst, ?_⟩
    simp [mergeStep, hc, hbe, hge]

/-- Witness for C3: one working-copy entry matched above the threshold,
with a strictly higher-confidence candidate overwriting it. -/
theorem merge_best_policy_witness :
    ∃ (j : ℕ) (ex : Area),
      ([⟨[0, 0, 10, 10], 1/2, "crack", "moderate", none⟩] : List Area)[j]? = some ex ∧
      valOf [0, 0, 10, 8] ex =
        maxIouVals [⟨[0, 0, 10, 10], 1/2, "crack", "moderate", none⟩] [0, 0, 10, 8] ∧
      (∀ (m : ℕ) (b : Area), m < j →
        ([⟨[0, 0, 10, 10], 1/2, "crack", "moderate", none⟩] : List Area)[m]? = some b →
        valOf [0, 0, 10, 8] b ≠
          maxIouVals [⟨[0, 0, 10, 10], 1/2, "crack", "moderate", none⟩] [0, 0, 10, 8]) ∧
      mergeStep (2/5) [⟨[0, 0, 10, 10], 1/2, "crack", "moderate", none⟩]
          ⟨[0, 0, 10, 8], 9/10, "stain", "minor", none⟩ =
        (if ex.confidence < (9 : ℚ)/10
         then [⟨[0, 0, 10, 10], 1/2, "crack", "moderate", none⟩].set j
           ⟨[0, 0, 10, 8], 9/10, "stain", "minor", none⟩
         else [⟨[0, 0, 10, 10], 1/2, "crack", "moderate", none⟩]) :=
  ((merge_best_policy [⟨[0, 0, 10, 10], 1/2, "crack", "moderate", none⟩] []
      (2/5) (by norm_num)).2
    [⟨[0, 0, 10, 10], 1/2, "crack", "moderate", none⟩]
    ⟨[0, 0, 10, 8], 9/10, "stain", "minor", none⟩ (by decide)).2
    (by with_unfolding_all decide)

/-- C2 counterexample: on the spec's concrete scenario the merged
record's `overlap_score` is exactly 0.81 (= 1296/1600), not ≈0.83 (it
does not round to 0.83 at two decimals). -/
theorem reconcile_scenario_cex :
    (reconcile [⟨[10, 10, 50, 50], 9/10, "crack", "moderate", none⟩]
      [⟨[12, 12, 48, 48], 6/10, "stain", "moderate", none⟩] (3/10)).map
        (fun r => r.overlap_score) = [81/100] ∧
    ¬ |(81 : ℚ)/100 - 83/100| ≤ 1/200 := by
  constructor
  · with_unfolding_all decide
  · rw [show (81 : ℚ)/100 - 83/100 = -(1/50) by norm_num, abs_neg, abs_of_nonneg (by norm_num)]
    norm_num

/-- C2 amended: for an Agent-1 area whose best Agent-2 match (first
maximal IoU, strictly above the threshold) is `a2`, the output record at
its index is merged with: confidence the 50/50 blend, type/severity from
the side with the strictly higher confidence (ties favour Agent 1), both
original confidences, the match IoU as `overlap_score` (0.81 on the
spec's concrete scenario, not ≈0.83), and Agent 1's bbox. -/
theorem reconcile_merged_record (A B : List Area) (t : ℚ) (i j : ℕ) (a1 a2 : Area)
    (ht : 0 ≤ t)
    (hA : ∀ a ∈ A, a.bbox.length = 4)
    (hi : A[i]? = some a1)
    (hj : B[j]? = some a2) (hv2 : a2.bbox.length = 4)
    (hgt : t < calculate_overlap a1.bbox a2.bbox)
    (hmax : ∀ b ∈ B, b.bbox.length = 4 →
      calculate_overlap a1.bbox b.bbox ≤ calculate_overlap a1.bbox a2.bbox)
    (hfirst : ∀ (k : ℕ) (b : Area), k < j → B[k]? = some b → b.bbox.length = 4 →
      calculate_overlap a1.bbox b.bbox ≠ calculate_overlap a1.bbox a2.bbox) :
    ∃ r, (reconcile A B t)[i]? = some r ∧
      r.confidence = (a1.confidence + a2.confidence) / 2 ∧
      r.damage_type =
        (if a2.confidence ≤ a1.confidence then a1.damage_type else a2.damage_type) ∧
      r.severity = (if a2.confidence ≤ a1.confidence then a1.severity else a2.severity) ∧
      r.agent1_confidence = a1.confidence ∧
      r.agent2_confidence = a2.confidence ∧
      r.overlap_score = calculate_overlap a1.bbox a2.bbox ∧
      r.bbox = a1.bbox := by
  have hbo := bestOverlap_eq_spec B a1.bbox t j a2 ht hj hv2 hgt hmax hfirst
  have hrA : reconcileA B t a1 = mergedRecord a1 a2 (calculate_overlap a1.bbox a2.bbox) := by
    rw [reconcileA, hbo]
  refine ⟨mergedRecord a1 a2 (calculate_overlap a1.bbox a2.bbox),
    by rw [reconcile_getElem_left A B t i a1 hA hi, hrA], ?_, rfl, rfl, rfl, rfl, rfl, rfl⟩
  show a1.confidence * (1/2) + a2.confidence * (1/2) = (a1.confidence + a2.confidence) / 2
  ring

/-- Witness for C2: the spec scenario, with the corrected IoU 0.81. -/
theorem reconcile_merged_record_witness :
    ∃ r, (reconcile [⟨[10, 10, 50, 50], 9/10, "crack", "moderate", none⟩]
      [⟨[12, 12, 48, 48], 6/10, "stain", "moderate", none⟩] (3/10))[0]? = some r ∧
      r.confidence = 3/4 ∧ r.damage_type = "crack" ∧
      r.agent1_confidence = 9/10 ∧ r.agent2_confidence = 6/10 ∧
      r.overlap_score = 81/100 := by
  obtain ⟨r, h0, hc, hd, hs, h1c, h2c, hov, hbb⟩ := reconcile_merged_record
    [⟨[10, 10, 50, 50], 9/10, "crack", "moderate", none⟩]
    [⟨[12, 12, 48, 48], 6/10, "stain", "moderate", none⟩] (3/10) 0 0
    ⟨[10, 10, 50, 50], 9/10, "crack", "moderate", none⟩
    ⟨[12, 12, 48, 48], 6/10, "stain", "moderate", none⟩
    (by norm_num) (by with_unfolding_all decide) rfl rfl rfl
    (by with_unfolding_all decide) (by with_unfolding_all decide)
    (fun k b hk => absurd hk (Nat.not_lt_zero k))
  refine ⟨r, h0, by rw [hc]; norm_num, ?_, h1c, h2c, ?_⟩
  · rw [hd, if_pos (by norm_num)]
  · rw [hov]; with_unfolding_all decide

theorem idxLe_total (scores : List ℚ) : ∀ i j, idxLe scores i j ∨ idxLe scores j i := by
  intro i j
  rcases lt_trichotomy (scores.getD i 0) (scores.getD j 0) with h | h | h
  · exact Or.inl (Or.inl h)
  · rcases Nat.le_total i j with hij | hij
    · exact Or.inl (Or.inr ⟨h, hij⟩)
    · exact Or.inr (Or.inr ⟨h.symm, hij⟩)
  · exact Or.inr (Or.inl h)

theorem idxLe_trans (scores : List ℚ) :
    ∀ i j k, idxLe scores i j → idxLe scores j k → idxLe scores i k := by
  intro i j k hij hjk
  rcases hij with h1 | ⟨h1, h1n⟩ <;> rcases hjk with h2 | ⟨h2, h2n⟩
  · exact Or.inl (lt_trans h1 h2)
  · exact Or.inl (h2 ▸ h1)
  · exact Or.inl (h1 ▸ h2)
  · exact Or.inr ⟨h1.trans h2, le_trans h1n h2n⟩

theorem argsortDesc_perm (scores : List ℚ) :
    (argsortDesc scores).Perm (List.range scores.length) :=
  (List.reverse_perm (argsortAsc scores)).trans
    (List.perm_insertionSort (idxLe scores) (List.range scores.length))

theorem argsortDesc_sorted (scores : List ℚ) :
    (argsortDesc scores).Pairwise (fun a b => idxLe scores b a) := by
  haveI : IsTotal ℕ (idxLe scores) := ⟨idxLe_total scores⟩
  haveI : IsTrans ℕ (idxLe scores) := ⟨idxLe_trans scores⟩
  have hs : (argsortAsc scores).Pairwise (idxLe scores) :=
    List.sorted_insertionSort (idxLe scores) (List.range scores.length)
  exact List.pairwise_reverse.mpr hs

theorem argsortDesc_nodup (scores : List ℚ) : (argsortDesc scores).Nodup :=
  ((argsortDesc_perm scores).nodup_iff).mpr (List.nodup_range scores.length)

/-- On a list whose head dominates every later element in the
(score, index) order, the claim-side argmax picks the head. -/
theorem pickBest_sorted (scores : List ℚ) (x : ℕ) (xs : List ℕ)
    (hall : ∀ j ∈ xs, idxLe scores j x ∧ j ≠ x) :
    pickBest scores (x :: xs) = some x := by
  have aux : ∀ (l : List ℕ),
      (∀ j ∈ l, idxLe scores j x ∧ j ≠ x) →
      l.foldl (fun b j =>
        if scores.getD b 0 < scores.getD j 0 ∨
            (scores.getD b 0 = scores.getD j 0 ∧ b < j) then j else b) x = x := by
    intro l
    induction l with
    | nil => intro _; rfl
    | cons y ys ih =>
      intro hl
      obtain ⟨hy, hyne⟩ := hl y (List.mem_cons_self y ys)
      have hno : ¬ (scores.getD x 0 < scores.getD y 0 ∨
          (scores.getD x 0 = scores.getD y 0 ∧ x < y)) := by
        rcases hy with h | ⟨h, hle⟩
        · rintro (hc | ⟨hc, _⟩)
          · exact absurd h (not_lt.mpr (le_of_lt hc))
          · exact absurd hc (ne_of_gt h)
        · rintro (hc | ⟨_, hc⟩)
          · exact absurd hc (not_lt.mpr (le_of_eq h))
          · exact absurd hc (not_lt.mpr (lt_of_le_of_ne hle hyne).le)
      rw [List.foldl_cons, if_neg hno]
      exact ih fun j hj => hl j (List.mem_cons_of_mem y hj)
  rw [pickBest, aux xs hall]

/-- On a descending-sorted, duplicate-free index list, the source NMS
loop coincides with the claim-side greedy loop that repeatedly selects
the highest-confidence remaining index. -/
theorem nmsLoop_eq_greedyLoop (boxes : List NBox) (scores : List ℚ) (t : ℚ) :
    ∀ (fuel : ℕ) (rem : List ℕ), rem.length ≤ fuel →
      rem.Pairwise (fun a b => idxLe scores b a) → rem.Nodup →
      nmsLoop boxes t fuel rem = greedyLoop boxes scores t fuel rem := by
  intro fuel
  induction fuel with
  | zero =>
    intro rem hlen _ _
    cases rem <;> rfl
  | succ n ih =>
    intro rem hlen hp hnd
    cases rem with
    | nil => rfl
    | cons x xs =>
      have hallx : ∀ j ∈ xs, idxLe scores j x :=
        fun j hj => (List.pairwise_cons.mp hp).1 j hj
      have hxnot : x ∉ xs := (List.nodup_cons.mp hnd).1
      have hpick : pickBest scores (x :: xs) = some x :=
        pickBest_sorted scores x xs
          (fun j hj => ⟨hallx j hj, fun he => hxnot (he ▸ hj)⟩)
      have hfe : (x :: xs).filter
          (fun j => decide (j ≠ x) && decide (nmsIou boxes x j ≤ t)) =
          xs.filter (fun j => decide (nmsIou boxes x j ≤ t)) := by
        rw [List.filter_cons]
        have hfx : (decide (x ≠ x) && decide (nmsIou boxes x x ≤ t)) = false := by simp
        rw [hfx]
        simp only [Bool.false_eq_true, if_false]
        apply List.filter_congr
        intro j hj
        have hne : j ≠ x := fun he => hxnot (he ▸ hj)
        simp [hne]
      have hsub : List.Sublist (xs.filter fun j => decide (nmsIou boxes x j ≤ t)) xs :=
        List.filter_sublist xs
      simp only [nmsLoop, greedyLoop, hpick, hfe]
      exact List.cons_eq_cons.mpr ⟨rfl,
        ih _ (le_trans (hsub.length_le) (Nat.le_of_succ_le_succ hlen))
          (List.Pairwise.sublist hsub hp.of_cons)
          (List.Nodup.sublist hsub (List.nodup_cons.mp hnd).2)⟩

/-- C7 amended: the decoder NMS considers indices in descending
confidence order (a permutation of all indices, obtained by reversing an
ascending stable sort — so on a confidence tie the later-encountered box
comes first and is the one kept, not the first-encountered); it
repeatedly keeps the highest-confidence remaining box and drops every
remaining box whose IoU with it strictly exceeds the threshold.  On the
spec scenario (two boxes with IoU 0.9, confidences 0.8 and 0.95,
threshold 0.45) only the 0.95 box is kept. -/
theorem nms_greedy_desc (boxes : List NBox) (scores : List ℚ) (t : ℚ) :
    (argsortDesc scores).Perm (List.range scores.length) ∧
    (argsortDesc scores).Pairwise (fun a b => idxLe scores b a) ∧
    nms boxes scores t =
      greedyLoop boxes scores t (argsortDesc scores).length (argsortDesc scores) ∧
    (nms [⟨0, 0, 90, 10⟩, ⟨0, 0, 100, 10⟩] [8/10, 19/20] (9/20) = [1] ∧
      nmsIou [⟨0, 0, 90, 10⟩, ⟨0, 0, 100, 10⟩] 0 1 = 9/10) := by
  refine ⟨argsortDesc_perm scores, argsortDesc_sorted scores, ?_, ?_⟩
  · exact nmsLoop_eq_greedyLoop boxes scores t (argsortDesc scores).length
      (argsortDesc scores) le_rfl (argsortDesc_sorted scores) (argsortDesc_nodup scores)
  · constructor
    · with_unfolding_all decide
    · with_unfolding_all decide

/-- C7 counterexample: on a confidence tie the code keeps the
later-encountered box, not the first-encountered one — two identical
boxes with equal confidence 0.5 and threshold 0.45 yield `[1]`, while
the claim's tie-break would yield `[0]`. -/
theorem nms_tie_cex :
    nms [⟨0, 0, 10, 10⟩, ⟨0, 0, 10, 10⟩] [1/2, 1/2] (9/20) = [1] ∧
    nms [⟨0, 0, 10, 10⟩, ⟨0, 0, 10, 10⟩] [1/2, 1/2] (9/20) ≠ [0] := by
  constructor
  · with_unfolding_all decide
  · with_unfolding_all decide

/-- The running maximum of the per-row argmax scan is the initial value
or one of the scanned values. -/
theorem argmaxRow_foldl_mem (l : List ℚ) :
    ∀ acc : ℕ × ℚ × ℕ,
      (l.foldl (fun (acc : ℕ × ℚ × ℕ) v =>
        if acc.2.1 < v then (acc.2.2, v, acc.2.2 + 1)
        else (acc.1, acc.2.1, acc.2.2 + 1)) acc).2.1 = acc.2.1 ∨
      (l.foldl (fun (acc : ℕ × ℚ × ℕ) v =>
        if acc.2.1 < v then (acc.2.2, v, acc.2.2 + 1)
        else (acc.1, acc.2.1, acc.2.2 + 1)) acc).2.1 ∈ l := by
  induction l with
  | nil => intro acc; exact Or.inl rfl
  | cons v vs ih =>
    intro acc
    rw [List.foldl_cons]
    by_cases hu : acc.2.1 < v
    · rw [if_pos hu]
      rcases ih (acc.2.2, v, acc.2.2 + 1) with h | h
      · exact Or.inr (by rw [h]; exact List.mem_cons_self v vs)
      · exact Or.inr (List.mem_cons_of_mem v h)
    · rw [if_neg hu]
      rcases ih (acc.1, acc.2.1, acc.2.2 + 1) with h | h
      · exact Or.inl h
      · exact Or.inr (List.mem_cons_of_mem v h)

/-- The maximum class score selected by `argmaxRow` on a non-empty row
is one of the row's values. -/
theorem argmaxRow_val_mem (x : ℚ) (xs : List ℚ) : (argmaxRow (x :: xs)).2 ∈ x :: xs := by
  rcases argmaxRow_foldl_mem xs (0, x, 1) with h | h
  · rw [show (argmaxRow (x :: xs)).2 = x from h]
    exact List.mem_cons_self x xs
  · exact List.mem_cons_of_mem x (show (argmaxRow (x :: xs)).2 ∈ xs from h)

theorem clip01_lt (s t : ℚ) (ht : 0 < t) (hs : s < t) : clip01 s < t :=
  lt_of_le_of_lt (min_le_right _ _) (max_lt ht hs)

/-- C8: the candidate decoder returns an empty list — and, being a total
function, never raises — whenever the per-anchor class-score tensor is
empty or no anchor's maximum class score reaches the (positive)
confidence threshold.  (With every raw class score below the threshold,
every row's clipped maximum is below it too.) -/
theorem decode_empty_on_no_candidates (predictions : List (List ℚ))
    (classNames : Option (List String)) (ct it : ℚ) (ratio : ℚ × ℚ) (dw dh : ℚ)
    (origW origH : ℤ) (hct : 0 < ct)
    (hcond : ((predictions.map fun row => (row.drop 4).length).sum = 0) ∨
      (∀ row ∈ predictions, ∀ s ∈ row.drop 4, s < ct)) :
    run_yolo_decode predictions classNames ct it ratio dw dh origW origH = [] := by
  by_cases hz : ((predictions.map fun row => row.drop 4).map (·.length)).sum = 0
  · simp only [run_yolo_decode]
    rw [if_pos hz]
  · rcases hcond with hzc | hlt
    · exact absurd (by rw [List.map_map]; exact hzc) hz
    · have hvr : ((predictions.map fun row =>
          (row, (argmaxRow (row.drop 4)).1, clip01 (argmaxRow (row.drop 4)).2)).filter
            fun r => decide (ct ≤ r.2.2)) = [] := by
        rw [List.filter_eq_nil_iff]
        intro r hr
        obtain ⟨row, hrow, hre⟩ := List.mem_map.mp hr
        have hval : clip01 (argmaxRow (row.drop 4)).2 < ct := by
          cases hdrop : row.drop 4 with
          | nil =>
            simpa [argmaxRow, clip01] using hct
          | cons y ys =>
            apply clip01_lt _ _ hct
            apply hlt row hrow
            rw [hdrop]
            exact argmaxRow_val_mem y ys
        rw [← hre]
        simpa using not_le.mpr hval
      simp only [run_yolo_decode]
      rw [if_neg hz, if_pos hvr]

/-- Witness for C8: a single anchor whose maximum class score 0.1 is
below the default threshold 0.3 decodes to the empty list. -/
theorem decode_empty_witness :
    run_yolo_decode [[1, 2, 3, 4, 1/10]] none (3/10) (9/20) (1, 1) 0 0 640 640 = [] :=
  decode_empty_on_no_candidates [[1, 2, 3, 4, 1/10]] none (3/10) (9/20) (1, 1) 0 0 640 640
    (by norm_num) (Or.inr (by with_unfolding_all decide))

/-- Witness for C9 at a concrete bbox and 10×10 grid. -/
theorem grid_coords_range_witness :
    bbox_to_grid_coords [0, 0, 100, 60] 100 100 10 =
      pixel_to_grid_coords (ratTrunc ((0 + 100) / 2)) (ratTrunc ((0 + 60) / 2)) 100 100 10 ∧
    0 ≤ (bbox_to_grid_coords [0, 0, 100, 60] 100 100 10).1 ∧
    (bbox_to_grid_coords [0, 0, 100, 60] 100 100 10).1 ≤ 10 - 1 ∧
    0 ≤ (bbox_to_grid_coords [0, 0, 100, 60] 100 100 10).2 ∧
    (bbox_to_grid_coords [0, 0, 100, 60] 100 100 10).2 ≤ 10 - 1 :=
  grid_coords_range 0 0 100 60 100 100 10 (by norm_num) (by norm_num) (by norm_num)
    (by norm_num) (by norm_num) (by norm_num) (by norm_num)
    (by norm_num) (by norm_num) (by norm_num) (by norm_num)

end ICD
